import Mathlib

/-!
Verification of the `deckofcards` core: the `Value` (rank) enumeration
(`src/value.rs`) and the `Hand` collection (`src/hand.rs`), shallowly
embedded in Lean 4.  Rust `Vec<Card>` becomes `List Card`; the panicking
`Vec::remove` becomes an `Option`-returning function; the `Card` type is
external to the sources and is modelled from the spec.
-/

namespace Deckofcards

/-- The thirteen standard card values, in the declaration order of
`src/value.rs` (`Two` first, `Ace` last). -/
inductive Value where
  | Two
  | Three
  | Four
  | Five
  | Six
  | Seven
  | Eight
  | Nine
  | Ten
  | Jack
  | Queen
  | King
  | Ace
  deriving DecidableEq, Repr, Fintype

namespace Value

/-- `Value::ordinal` from `src/value.rs`: the canonical rank of a value as a
`u8` (all results fit far below `2^8`, so `Nat` is an exact model). -/
def ordinal : Value → Nat
  | Ace => 0
  | Two => 1
  | Three => 2
  | Four => 3
  | Five => 4
  | Six => 5
  | Seven => 6
  | Eight => 7
  | Nine => 8
  | Ten => 9
  | Jack => 10
  | Queen => 11
  | King => 12

/-- The static `VALUES` array that `Value::iterator` iterates over
(`src/value.rs`).  Each call to `iterator()` yields the elements of this
array from the start, so the list models every (restarted) iteration. -/
def iteratorValues : List Value :=
  [Ace, Two, Three, Four, Five, Six, Seven, Eight, Nine, Ten, Jack, Queen, King]

/-- `Value::to_str` from `src/value.rs`: the capitalized English name. -/
def to_str : Value → String
  | Ace => "Ace"
  | Two => "Two"
  | Three => "Three"
  | Four => "Four"
  | Five => "Five"
  | Six => "Six"
  | Seven => "Seven"
  | Eight => "Eight"
  | Nine => "Nine"
  | Ten => "Ten"
  | Jack => "Jack"
  | Queen => "Queen"
  | King => "King"

end Value

/-- Modelled from the spec: the suit of a card is an external attribute
"not detailed here"; the four standard suits. -/
inductive Suit where
  | Spades
  | Hearts
  | Diamonds
  | Clubs
  deriving DecidableEq, Repr

namespace Suit

/-- Modelled from the spec: the suit letter used in abbreviated card
renderings such as `"AS"` and `"2H"`. -/
def to_char : Suit → String
  | Spades => "S"
  | Hearts => "H"
  | Diamonds => "D"
  | Clubs => "C"

end Suit

/-- Modelled from the spec: the abbreviated rank token used in short
renderings such as `"2H"` and `"AS"` (rank letter or digit). -/
def Value.shortStr : Value → String
  | Value.Ace => "A"
  | Value.Two => "2"
  | Value.Three => "3"
  | Value.Four => "4"
  | Value.Five => "5"
  | Value.Six => "6"
  | Value.Seven => "7"
  | Value.Eight => "8"
  | Value.Nine => "9"
  | Value.Ten => "T"
  | Value.Jack => "J"
  | Value.Queen => "Q"
  | Value.King => "K"

/-- Modelled from the spec: the external `Card` value type, "opaque to this
core beyond exposing a `Value` and a suit; equality is by-value". -/
structure Card where
  value : Value
  suit : Suit
  deriving DecidableEq, Repr

/-- Modelled from the spec: the external `Card`'s "short textual rendering
used by `Hand`'s display" (`"2H,AS"`-style rank-then-suit abbreviation). -/
def Card.to_str (c : Card) : String :=
  c.value.shortStr ++ c.suit.to_char

/-- The `Hand` struct of `src/hand.rs`: `pub cards: Vec<Card>`, here a
`List Card`. -/
structure Hand where
  cards : List Card
  deriving DecidableEq, Repr

namespace Hand

/-- `Hand::new` from `src/hand.rs`. -/
def new : Hand := { cards := [] }

/-- `Hand::from_cards` from `src/hand.rs`: copies the given slice. -/
def from_cards (cards : List Card) : Hand := { cards := cards }

/-- `Hand::from_hand` from `src/hand.rs`. -/
def from_hand (hand : Hand) : Hand := from_cards hand.cards

/-- `Hand::push_card` from `src/hand.rs`: `self.cards.push(card)`. -/
def push_card (self : Hand) (card : Card) : Hand :=
  { self with cards := self.cards ++ [card] }

/-- `Hand::push_cards` from `src/hand.rs`: `self.cards.extend(cards)`. -/
def push_cards (self : Hand) (cards : List Card) : Hand :=
  { self with cards := self.cards ++ cards }

/-- `Hand::push_hand` from `src/hand.rs`: `self.cards.extend(other.cards())`. -/
def push_hand (self : Hand) (other : Hand) : Hand :=
  { self with cards := self.cards ++ other.cards }

/-- `Hand::len` from `src/hand.rs`. -/
def len (self : Hand) : Nat := self.cards.length

/-- `Hand::clear` from `src/hand.rs`. -/
def clear (_self : Hand) : Hand := { cards := [] }

/-- `Hand::remove` from `src/hand.rs`: `self.cards.remove(index)`.
`Vec::remove` returns the element at `index`, shifting the later elements
left; it panics when `index` is out of bounds, modelled by `none`. -/
def remove (self : Hand) (index : Nat) : Option (Card × Hand) :=
  if h : index < self.cards.length then
    some (self.cards.get ⟨index, h⟩, { self with cards := self.cards.eraseIdx index })
  else
    none

/-- `Hand::remove_card` from `src/hand.rs`: looks up
`self.cards.iter().position(|c| *c == card)` and, when found, removes the
element at that position; otherwise the hand is untouched. -/
def remove_card (self : Hand) (card : Card) : Hand :=
  match self.cards.findIdx? (fun c => c = card) with
  | some found => { self with cards := self.cards.eraseIdx found }
  | none => self

/-- `Hand::remove_cards` from `src/hand.rs`: `for c in cards { self.remove_card(*c); }`. -/
def remove_cards (self : Hand) (cards : List Card) : Hand :=
  cards.foldl (fun h c => h.remove_card c) self

/-- `Hand::clone` (the `Clone` impl of `src/hand.rs`): a hand whose card
vector is `self.cards.clone()`, an element-wise copy. -/
def clone (self : Hand) : Hand := { cards := self.cards }

/-- The `AddAssign<Card>` impl of `src/hand.rs`: `self.push_card(rhs)`.
Rust mutates the left operand in place; the model returns the new state of
the left operand. -/
def add_assign_card (self : Hand) (rhs : Card) : Hand :=
  self.push_card rhs

/-- The `AddAssign<&Hand>` impl of `src/hand.rs`: `self.push_hand(rhs)`.
The right operand is borrowed immutably, so its state after the call is
the unchanged `rhs`, which the model returns alongside the left operand. -/
def add_assign_hand (self : Hand) (rhs : Hand) : Hand × Hand :=
  (self.push_hand rhs, rhs)

/-- The `Display` impl of `src/hand.rs`: for each card (with its index)
append `card.to_str()`, then a `,` whenever the index is below
`self.cards.len() - 1`. -/
def display (self : Hand) : String :=
  self.cards.enum.foldl
    (fun result ic =>
      let result := result ++ ic.2.to_str
      if ic.1 < self.cards.length - 1 then result ++ "," else result)
    ""

end Hand

/-- Spec-side rendering for C6: "a comma-separated list of each card's own
textual form, in hand order, with no trailing separator and no brackets";
the empty hand renders as the empty string. -/
def joinComma : List String → String
  | [] => ""
  | [s] => s
  | s :: rest => s ++ "," ++ joinComma rest

/-- The two-variable Rust program `let b = a.clone(); b.push_card(x);`
modelled by explicit state passing: `push_card` mutates only `b`, so the
final state is the pair (final `a`, final `b`). -/
def cloneAndPush (a : Hand) (x : Card) : Hand × Hand :=
  let b := a.clone
  (a, b.push_card x)

/-! Sample cards used by concrete witnesses. -/

def AceOfSpades : Card := ⟨Value.Ace, Suit.Spades⟩

def TwoOfHearts : Card := ⟨Value.Two, Suit.Hearts⟩

def KingOfHearts : Card := ⟨Value.King, Suit.Hearts⟩

def AceOfClubs : Card := ⟨Value.Ace, Suit.Clubs⟩

/-! Helper lemmas shared by the claim theorems. -/

theorem Hand.eq_of_cards_eq {a b : Hand} (h : a.cards = b.cards) : a = b := by
  cases a; cases b; simpa using h

theorem Hand.remove_card_cards_match (h : Hand) (c : Card) :
    (h.remove_card c).cards =
      match h.cards.findIdx? (fun x => x = c) with
      | some found => h.cards.eraseIdx found
      | none => h.cards := by
  unfold Hand.remove_card
  cases h.cards.findIdx? (fun x => x = c) <;> rfl

theorem findIdx_eraseIdx_eq_erase (l : List Card) (c : Card) :
    (match l.findIdx? (fun x => x = c) with
     | some found => l.eraseIdx found
     | none => l) = l.erase c := by
  induction l with
  | nil => rfl
  | cons a l ih =>
    by_cases hac : a = c
    · subst hac
      simp [List.findIdx?_cons]
    · have hbeq : ¬((a == c) = true) := by simp [hac]
      rw [List.erase_cons_tail hbeq, List.findIdx?_cons]
      have hdec : decide (a = c) = false := by simp [hac]
      rw [hdec]
      simp only [Bool.false_eq_true, if_false]
      have hsucc : l.findIdx? (fun x => decide (x = c)) 1 =
          (l.findIdx? (fun x => decide (x = c)) 0).map fun i => i + 1 :=
        List.findIdx?_succ
      rw [hsucc]
      cases hfind : l.findIdx? (fun x => decide (x = c)) 0 with
      | none =>
        rw [hfind] at ih
        simpa using ih
      | some j =>
        rw [hfind] at ih
        simpa using ih

/-- The cards left by `remove_card` are exactly `List.erase`: the first
occurrence of the card (scanning from the front) is dropped, absent cards
leave the list untouched. -/
theorem Hand.remove_card_cards (h : Hand) (c : Card) :
    (h.remove_card c).cards = h.cards.erase c := by
  rw [Hand.remove_card_cards_match]
  exact findIdx_eraseIdx_eq_erase h.cards c

theorem Hand.remove_card_of_not_mem (h : Hand) (c : Card) (hc : c ∉ h.cards) :
    h.remove_card c = h := by
  apply Hand.eq_of_cards_eq
  rw [Hand.remove_card_cards]
  exact List.erase_of_not_mem hc

theorem Hand.remove_card_len_of_mem (h : Hand) (c : Card) (hc : c ∈ h.cards) :
    (h.remove_card c).len + 1 = h.len := by
  have hlen : (h.remove_card c).cards.length = h.cards.length - 1 := by
    rw [Hand.remove_card_cards]
    exact List.length_erase_of_mem hc
  have hpos : 0 < h.cards.length := by
    cases hcs : h.cards with
    | nil => rw [hcs] at hc; simp at hc
    | cons a l => simp [hcs]
  simp only [Hand.len, hlen]
  omega

/-- **C1.** For every `Value` `v`, `ordinal v` lies in `[0,12]`; `ordinal`
is injective, every integer in `[0,12]` is attained (so `ordinal` is a
bijection from the 13 values onto `[0,12]`), `Ace` maps to `0` and `King`
maps to `12`. -/
theorem C1_ordinal_bijection :
    (∀ v : Value, v.ordinal ≤ 12) ∧
    (∀ v w : Value, v.ordinal = w.ordinal → v = w) ∧
    (∀ n : Nat, n ≤ 12 → ∃ v : Value, v.ordinal = n) ∧
    Value.ordinal Value.Ace = 0 ∧ Value.ordinal Value.King = 12 := by
  refine ⟨by decide, by decide, ?_, rfl, rfl⟩
  intro n hn
  interval_cases n <;> first
    | exact ⟨Value.Ace, rfl⟩
    | exact ⟨Value.Two, rfl⟩
    | exact ⟨Value.Three, rfl⟩
    | exact ⟨Value.Four, rfl⟩
    | exact ⟨Value.Five, rfl⟩
    | exact ⟨Value.Six, rfl⟩
    | exact ⟨Value.Seven, rfl⟩
    | exact ⟨Value.Eight, rfl⟩
    | exact ⟨Value.Nine, rfl⟩
    | exact ⟨Value.Ten, rfl⟩
    | exact ⟨Value.Jack, rfl⟩
    | exact ⟨Value.Queen, rfl⟩
    | exact ⟨Value.King, rfl⟩

/-- **C2.** `Value::iterator()` yields exactly 13 pairwise-distinct values;
the `i`-th yielded value has ordinal `i` (hence the sequence is
`Ace, Two, …, King` in ascending rank order).  The iterator reads the same
static array on every call, which the single list `iteratorValues` models,
so a restarted iteration is the same sequence. -/
theorem C2_iterator_sequence :
    Value.iteratorValues.length = 13 ∧
    Value.iteratorValues.Nodup ∧
    (∀ i : Nat, ∀ hi : i < Value.iteratorValues.length,
      (Value.iteratorValues.get ⟨i, hi⟩).ordinal = i) ∧
    Value.iteratorValues.head? = some Value.Ace ∧
    Value.iteratorValues.getLast? = some Value.King := by
  refine ⟨rfl, by decide, ?_, rfl, rfl⟩
  intro i hi
  simp only [Value.iteratorValues, List.length_cons, List.length_nil] at hi
  interval_cases i <;> rfl

/-- **C3.** For every hand `h` of length `L` and index `i`: if `i < L` then
`remove i` returns the card that was at position `i` together with a hand
whose length is `L - 1`; if `i ≥ L` the call fails fatally (`Vec::remove`
panics, modelled by `none`), with no recoverable or best-effort result. -/
theorem C3_remove_in_range_or_panics (h : Hand) (i : Nat) :
    (∀ hi : i < h.len, ∃ c h2, h.remove i = some (c, h2) ∧
      c = h.cards.get ⟨i, hi⟩ ∧ h2.len + 1 = h.len) ∧
    (h.len ≤ i → h.remove i = none) := by
  constructor
  · intro hi
    refine ⟨h.cards.get ⟨i, hi⟩, ⟨h.cards.eraseIdx i⟩, ?_, rfl, ?_⟩
    · simp [Hand.remove, hi, Hand.len] at *
      simp [Hand.len] at hi
      simp [hi]
    · have hi2 : i < h.cards.length := hi
      simp only [Hand.len, List.length_eraseIdx, hi2, if_true]
      omega
  · intro hle
    have hnot : ¬ i < h.cards.length := by
      simp only [Hand.len] at hle; omega
    simp [Hand.remove, hnot]

/-- Witness for C3 at concrete inputs: removing index 0 from a two-card
hand succeeds with the expected card and a one-card remainder; removing
index 3 from a one-card hand is the panic case. -/
theorem C3_witness :
    (∃ c h2, (Hand.from_cards [AceOfSpades, TwoOfHearts]).remove 0 = some (c, h2) ∧
      c = (Hand.from_cards [AceOfSpades, TwoOfHearts]).cards.get ⟨0, by decide⟩ ∧
      h2.len + 1 = (Hand.from_cards [AceOfSpades, TwoOfHearts]).len) ∧
    (Hand.from_cards [AceOfSpades]).remove 3 = none :=
  ⟨(C3_remove_in_range_or_panics (Hand.from_cards [AceOfSpades, TwoOfHearts]) 0).1
      (by decide),
   (C3_remove_in_range_or_panics (Hand.from_cards [AceOfSpades]) 3).2 (by decide)⟩

/-- **C4.** For every hand `h` and card `c`: the cards left by
`remove_card c` are `h.cards.erase c`, i.e. exactly the first card equal to
`c` (scanning from the front) is removed; when `c` occurs in `h` the length
drops by exactly 1, and when it does not the hand is exactly unchanged (a
silent no-op, no error). -/
theorem C4_remove_card_first_match_or_noop (h : Hand) (c : Card) :
    (h.remove_card c).cards = h.cards.erase c ∧
    (c ∈ h.cards → (h.remove_card c).len + 1 = h.len) ∧
    (c ∉ h.cards → h.remove_card c = h) :=
  ⟨Hand.remove_card_cards h c,
   fun hc => Hand.remove_card_len_of_mem h c hc,
   fun hc => Hand.remove_card_of_not_mem h c hc⟩

/-- Witness for C4 at concrete inputs: removing a present card from a
three-card hand (two matches — only the first is erased), and removing an
absent card as a no-op. -/
theorem C4_witness :
    AceOfSpades ∈ (Hand.from_cards [AceOfSpades, TwoOfHearts, AceOfSpades]).cards ∧
    ((Hand.from_cards [AceOfSpades, TwoOfHearts, AceOfSpades]).remove_card
        AceOfSpades).len + 1 =
      (Hand.from_cards [AceOfSpades, TwoOfHearts, AceOfSpades]).len ∧
    KingOfHearts ∉ (Hand.from_cards [AceOfSpades, TwoOfHearts]).cards ∧
    (Hand.from_cards [AceOfSpades, TwoOfHearts]).remove_card KingOfHearts =
      Hand.from_cards [AceOfSpades, TwoOfHearts] :=
  ⟨by decide,
   (C4_remove_card_first_match_or_noop
      (Hand.from_cards [AceOfSpades, TwoOfHearts, AceOfSpades]) AceOfSpades).2.1
      (by decide),
   by decide,
   (C4_remove_card_first_match_or_noop
      (Hand.from_cards [AceOfSpades, TwoOfHearts]) KingOfHearts).2.2 (by decide)⟩

/-- **C5.** `remove_cards` applies `remove_card` once per element of the
input, in input order (empty input is the identity, a cons runs
`remove_card` on the head and recurses on the tail); consequently removing
`[c, c]` from a hand containing exactly one card equal to `c` decreases the
length by exactly 1 — the second removal is a no-op. -/
theorem C5_remove_cards_sequential (h : Hand) (c : Card) (cs : List Card) :
    h.remove_cards [] = h ∧
    h.remove_cards (c :: cs) = (h.remove_card c).remove_cards cs ∧
    (h.cards.count c = 1 → (h.remove_cards [c, c]).len + 1 = h.len) := by
  refine ⟨rfl, rfl, ?_⟩
  intro hcount
  have hmem : c ∈ h.cards := List.count_pos_iff.mp (by omega)
  have hnot : c ∉ (h.remove_card c).cards := by
    rw [Hand.remove_card_cards]
    intro hmem2
    have := List.count_pos_iff.mpr hmem2
    rw [List.count_erase_self, hcount] at this
    omega
  have hstep : h.remove_cards [c, c] = (h.remove_card c).remove_card c := rfl
  rw [hstep, Hand.remove_card_of_not_mem _ _ hnot]
  exact Hand.remove_card_len_of_mem h c hmem

/-- Witness for C5 at a concrete input: the hand `[AS, 2H]` contains
exactly one Ace of Spades, and removing `[AS, AS]` drops the length from 2
to 1, not to 0. -/
theorem C5_witness :
    (Hand.from_cards [AceOfSpades, TwoOfHearts]).cards.count AceOfSpades = 1 ∧
    ((Hand.from_cards [AceOfSpades, TwoOfHearts]).remove_cards
        [AceOfSpades, AceOfSpades]).len + 1 =
      (Hand.from_cards [AceOfSpades, TwoOfHearts]).len :=
  ⟨by decide,
   (C5_remove_cards_sequential (Hand.from_cards [AceOfSpades, TwoOfHearts])
      AceOfSpades []).2.2 (by decide)⟩

theorem display_foldl_go (L : Nat) (cs : List Card) (n : Nat) (acc : String)
    (hL : n + cs.length = L) :
    (cs.enumFrom n).foldl
      (fun result ic =>
        let result := result ++ ic.2.to_str
        if ic.1 < L - 1 then result ++ "," else result)
      acc
    = acc ++ joinComma (cs.map Card.to_str) := by
  induction cs generalizing n acc with
  | nil => simp [joinComma]
  | cons c cs ih =>
    rw [List.enumFrom_cons]
    simp only [List.foldl_cons]
    cases cs with
    | nil =>
      have hcond : ¬ n < L - 1 := by
        simp only [List.length_cons, List.length_nil] at hL
        omega
      simp [hcond, joinComma]
    | cons c2 cs2 =>
      have hcond : n < L - 1 := by
        simp only [List.length_cons] at hL
        omega
      have hL2 : (n + 1) + (c2 :: cs2).length = L := by
        simp only [List.length_cons] at hL ⊢
        omega
      simp only [hcond, if_true]
      rw [ih (n + 1) (acc ++ c.to_str ++ ",") hL2]
      simp [joinComma, String.append_assoc]

/-- **C6.** The display rendering of a hand is the concatenation of each
card's own textual form (`card.to_str()`) in hand order, joined by single
commas, with no trailing separator and no brackets; the empty hand renders
as the empty string and a one-card hand renders as that card's string
alone. -/
theorem C6_display_comma_separated (h : Hand) :
    h.display = joinComma (h.cards.map Card.to_str) ∧
    Hand.new.display = "" ∧
    ∀ c : Card, (Hand.from_cards [c]).display = c.to_str := by
  have hgen : ∀ g : Hand, g.display = joinComma (g.cards.map Card.to_str) := by
    intro g
    have hstart : g.display =
        (g.cards.enumFrom 0).foldl
          (fun result ic =>
            let result := result ++ ic.2.to_str
            if ic.1 < g.cards.length - 1 then result ++ "," else result)
          "" := rfl
    rw [hstart, display_foldl_go g.cards.length g.cards 0 "" (by omega)]
    simp
  refine ⟨hgen h, hgen Hand.new, fun c => ?_⟩
  rw [hgen (Hand.from_cards [c])]
  rfl

theorem foldl_push_card (h : Hand) (cs : List Card) :
    cs.foldl Hand.push_card h = ⟨h.cards ++ cs⟩ := by
  induction cs generalizing h with
  | nil => exact Hand.eq_of_cards_eq (by simp)
  | cons c cs ih =>
    simp only [List.foldl_cons]
    rw [ih]
    exact Hand.eq_of_cards_eq (by simp [Hand.push_card])

/-- **C7.** `push_cards` is equivalent to folding `push_card` over the
slice in order: it appends the cards at the end preserving relative order;
after `N` single pushes starting from the empty hand, `len` is `N` and
`cards` lists the pushed cards in insertion order. -/
theorem C7_push_cards_is_repeated_push (h : Hand) (cs : List Card) :
    h.push_cards cs = cs.foldl Hand.push_card h ∧
    (h.push_cards cs).cards = h.cards ++ cs ∧
    (cs.foldl Hand.push_card Hand.new).len = cs.length ∧
    (cs.foldl Hand.push_card Hand.new).cards = cs := by
  rw [foldl_push_card, foldl_push_card]
  exact ⟨rfl, rfl, by simp [Hand.new, Hand.len], by simp [Hand.new]⟩

/-- **C8.** The append operators behave identically to `push_card` and
`push_hand`: `+= card` is `push_card`, `+= &hand` is `push_hand` on the
left operand, the right-hand hand is unchanged afterwards (it is borrowed,
not consumed), and the cards of the right operand are appended in that
operand's order. -/
theorem C8_add_assign_aliases (a b : Hand) (c : Card) :
    a.add_assign_card c = a.push_card c ∧
    (a.add_assign_hand b).1 = a.push_hand b ∧
    (a.add_assign_hand b).2 = b ∧
    (a.add_assign_hand b).1.cards = a.cards ++ b.cards ∧
    (a.add_assign_card c).cards = a.cards ++ [c] :=
  ⟨rfl, rfl, rfl, rfl, rfl⟩

/-- **C9.** `clone` produces a hand whose card sequence is element-wise
equal to the original's, and the clones evolve independently: after
`let b = a.clone(); b.push_card(x);` the hand `a` still has its original
length and card sequence while `b` holds `a`'s cards followed by `x`. -/
theorem C9_clone_independent (a : Hand) (x : Card) :
    (a.clone).cards = a.cards ∧
    (cloneAndPush a x).1 = a ∧
    (cloneAndPush a x).1.len = a.len ∧
    (cloneAndPush a x).1.cards = a.cards ∧
    (cloneAndPush a x).2.cards = a.cards ++ [x] :=
  ⟨rfl, rfl, rfl, rfl, rfl⟩

/-- **C10.** Removal preserves the relative order of the remaining cards:
`remove i` (for `i < len`) leaves the cards before position `i` unchanged
and shifts the cards after position `i` left by one (the remainder is
`take i ++ drop (i+1)`); `remove_card c` removes only the single
first-matching element (the remainder is `take k ++ drop (k+1)` at the
first match index `k`), so the remaining cards form a sublist — the same
relative order as before the call. -/
theorem C10_removal_preserves_order (h : Hand) (i : Nat) (c : Card) :
    (i < h.len → ∃ x, h.remove i =
      some (x, ⟨h.cards.take i ++ h.cards.drop (i + 1)⟩)) ∧
    (h.remove_card c).cards.Sublist h.cards ∧
    (∀ k, h.cards.findIdx? (fun x => x = c) = some k →
      (h.remove_card c).cards = h.cards.take k ++ h.cards.drop (k + 1)) := by
  refine ⟨?_, ?_, ?_⟩
  · intro hi
    refine ⟨h.cards.get ⟨i, hi⟩, ?_⟩
    have hi2 : i < h.cards.length := hi
    simp [Hand.remove, hi2, List.eraseIdx_eq_take_drop_succ]
  · rw [Hand.remove_card_cards]
    exact List.erase_sublist c h.cards
  · intro k hk
    rw [Hand.remove_card_cards_match, hk]
    exact List.eraseIdx_eq_take_drop_succ h.cards k

/-- Witness for C10 at concrete inputs: on the hand `[AS, 2H, KH]`,
`remove 1` keeps `AS` before and shifts `KH` left; `remove_card 2H` (first
match at index 1) leaves `[AS, KH]`, a sublist of the original. -/
theorem C10_witness :
    (∃ x, (Hand.from_cards [AceOfSpades, TwoOfHearts, KingOfHearts]).remove 1 =
      some (x, ⟨(Hand.from_cards [AceOfSpades, TwoOfHearts, KingOfHearts]).cards.take 1 ++
        (Hand.from_cards [AceOfSpades, TwoOfHearts, KingOfHearts]).cards.drop 2⟩)) ∧
    ((Hand.from_cards [AceOfSpades, TwoOfHearts, KingOfHearts]).remove_card
      TwoOfHearts).cards.Sublist
      (Hand.from_cards [AceOfSpades, TwoOfHearts, KingOfHearts]).cards ∧
    ((Hand.from_cards [AceOfSpades, TwoOfHearts, KingOfHearts]).remove_card
        TwoOfHearts).cards =
      (Hand.from_cards [AceOfSpades, TwoOfHearts, KingOfHearts]).cards.take 1 ++
      (Hand.from_cards [AceOfSpades, TwoOfHearts, KingOfHearts]).cards.drop 2 :=
  ⟨(C10_removal_preserves_order
      (Hand.from_cards [AceOfSpades, TwoOfHearts, KingOfHearts]) 1 TwoOfHearts).1
      (by decide),
   (C10_removal_preserves_order
      (Hand.from_cards [AceOfSpades, TwoOfHearts, KingOfHearts]) 1 TwoOfHearts).2.1,
   (C10_removal_preserves_order
      (Hand.from_cards [AceOfSpades, TwoOfHearts, KingOfHearts]) 1 TwoOfHearts).2.2 1
      (by decide)⟩

end Deckofcards
